import Mathlib

/-!
# Verification of the TiKV read-path adapter
Shallow embedding of `crates/store/src/backend/tikv/read.rs`
(`get_value` / `read_chunked_value_snapshot` / `read_chunked_value_transaction`,
`get_bitmap`, `iterate`, `get_counter`) over a pure store model.

Keys and values are byte strings, modelled as `List Nat` whose elements are
intended to be `< 256`. A point-in-time read source (snapshot or transaction)
is a function `List Nat → Option (List Nat)` (`get`); a scannable store is a
sorted association list of key/value pairs. Backend collaborators
(`tikv_client`'s `scan` / `scan_reverse` / `scan_keys`, the key codec of
`crate::write::key`, and `crate::backend::deserialize_i64_le`) are not part of
the given sources and are modelled from the specification where noted.
-/

namespace Tikv

/-- Byte-lexicographic strict order on byte strings, the key order of the
backend's flat key space. -/
def lexLt : List Nat → List Nat → Bool
  | [], [] => false
  | [], _ :: _ => true
  | _ :: _, [] => false
  | a :: as, b :: bs => a < b || (a == b && lexLt as bs)

/-- Byte-lexicographic reflexive order. -/
def lexLe (a b : List Nat) : Bool :=
  lexLt a b || a == b

/-- Membership of a key in the scan range `[begin, end)` (inclusive lower
bound, exclusive upper bound), the bound convention of the backend scan
(spec §4.3). -/
def inRange (b e k : List Nat) : Bool :=
  lexLe b k && lexLt k e

/-- A scannable store: association list of (key, value) pairs; the backend
keeps it sorted by `lexLt` on keys. -/
abbrev Store := List (List Nat × List Nat)

/-- The backend invariant that keys are held in strictly ascending
byte-lexicographic order. -/
def StoreSorted (store : Store) : Prop :=
  store.Pairwise (fun kv kv' => lexLt kv.1 kv'.1 = true)

/-- Modelled from the spec: backend `scan(range, limit)` returns the entries
of the store whose key lies in `[b, e)`, in ascending key order (the store is
kept sorted), truncated to at most `limit` entries. -/
def scan (store : Store) (b e : List Nat) (limit : Nat) : Store :=
  (store.filter (fun kv => inRange b e kv.1)).take limit

/-- Modelled from the spec: backend `scan_reverse(range, limit)` returns the
in-range entries in descending key order, truncated to at most `limit`. -/
def scanReverse (store : Store) (b e : List Nat) (limit : Nat) : Store :=
  (store.filter (fun kv => inRange b e kv.1)).reverse.take limit

/-- Modelled from the spec: backend `scan_keys(range, limit)`, the key-only
variant of `scan`. -/
def scanKeys (store : Store) (b e : List Nat) (limit : Nat) : List (List Nat) :=
  (scan store b e limit).map (fun kv => kv.1)

/-- `u32::MAX`. -/
def U32MAX : Nat := 2 ^ 32 - 1

/-- The result type of chunked-value reads (`ChunkedValue` in read.rs).
`Chunked n bytes` carries `n_chunks` and the concatenated payload. -/
inductive ChunkedValue where
  | Single : List Nat → ChunkedValue
  | Chunked : Nat → List Nat → ChunkedValue
  | NoValue : ChunkedValue
deriving DecidableEq, Repr

/-- The chunk-fetch loop of `read_chunked_value_snapshot` /
`read_chunked_value_transaction`: starting from trailing index byte `idx`,
fetch `base ++ [idx]`; while present, append the payload and increment the
trailing index byte. The loop exits normally only when a fetch returns
absent; the payload length is never inspected. The trailing byte is a `u8`
with 256 possible values, so the loop is run with fuel 256, enough for every
reachable index; incrementing past 255 is the u8 overflow (a wrapping add in
the binary, after which the loop cannot terminate normally), modelled as
`none`, as is fuel exhaustion, which is unreachable from index 0. -/
def chunkLoop (get : List Nat → Option (List Nat)) (base : List Nat) :
    Nat → Nat → List Nat → Option (List Nat × Nat)
  | 0, _, _ => none
  | fuel + 1, idx, acc =>
    match get (base ++ [idx]) with
    | none => some (acc, idx)
    | some bytes =>
      if idx < 255 then
        chunkLoop get base fuel (idx + 1) (acc ++ bytes)
      else
        none

/-- `read_chunked_value_snapshot` / `read_chunked_value_transaction` (the two
functions are textually identical up to the read source, which is here the
`get` argument): fetch the base key; absent gives `NoValue`; a payload
shorter than `maxValueSize` (the `MAX_VALUE_SIZE` constant of the tikv
module, passed explicitly here) gives `Single`; otherwise accumulate the base
payload and run the chunk loop from trailing index byte 0. The outer `none`
is the u8 index overflow of the loop. -/
def read_chunked_value (maxValueSize : Nat) (get : List Nat → Option (List Nat))
    (key : List Nat) : Option ChunkedValue :=
  match get key with
  | none => some ChunkedValue.NoValue
  | some bytes =>
    if bytes.length < maxValueSize then
      some (ChunkedValue.Single bytes)
    else
      match chunkLoop get key 256 0 bytes with
      | none => none
      | some (value, nChunks) => some (ChunkedValue.Chunked nChunks value)

/-- Modelled from the spec: big-endian 4-byte encoding of a 32-bit document
ID (key codec of `crate::write::key`, §4.1: trailing 4 bytes, big-endian, so
byte-lexicographic order equals numeric order). -/
def beU32 (d : Nat) : List Nat :=
  [d / 2 ^ 24 % 256, d / 2 ^ 16 % 256, d / 2 ^ 8 % 256, d % 256]

/-- Modelled from the spec: `deserialize_be_u32(bytes, offset)` of the key
codec — decode 4 big-endian bytes at `offset`; `Deserialization` error
(`none`) when fewer than 4 bytes remain there. -/
def deserialize_be_u32 (bytes : List Nat) (offset : Nat) : Option Nat :=
  match (bytes.drop offset).take 4 with
  | [b3, b2, b1, b0] => some (b3 * 2 ^ 24 + b2 * 2 ^ 16 + b1 * 2 ^ 8 + b0)
  | _ => none

/-- Modelled from the spec: `BitmapKey::serialize(WITH_SUBSPACE)` — subspace
discriminator byte, class-specific bytes, then the document ID as trailing
big-endian 4 bytes (§3, §4.1). -/
def serializeBitmapKey (subspace : Nat) (classBytes : List Nat) (docId : Nat) :
    List Nat :=
  subspace :: classBytes ++ beU32 docId

/-- The aggregation loop of `get_bitmap`: over the scanned keys, every key
whose total length equals `keyLen` has its trailing 4 bytes decoded as a
document ID and inserted into the bitmap; other keys are skipped. A failed
decode is the propagated `Deserialization` error (`none`). -/
def bitmapFold (keyLen : Nat) : List (List Nat) → Finset Nat →
    Option (Finset Nat)
  | [], bm => some bm
  | k :: ks, bm =>
    if k.length = keyLen then
      match deserialize_be_u32 k (k.length - 4) with
      | some d => bitmapFold keyLen ks (insert d bm)
      | none => none
    else
      bitmapFold keyLen ks bm

/-- `get_bitmap`: serialize the key as given for `begin`, the same key with
`document_id = u32::MAX` for `end`, scan keys over `(begin, end)` with limit
`maxKeys` (the `MAX_KEYS` constant of the tikv module, passed explicitly),
aggregate with the key-length filter, and return `none` for an empty bitmap.
The outer `Option` is the propagated error. -/
def get_bitmap (store : Store) (subspace : Nat) (classBytes : List Nat)
    (docId : Nat) (maxKeys : Nat) : Option (Option (Finset Nat)) :=
  let b := serializeBitmapKey subspace classBytes docId
  let e := serializeBitmapKey subspace classBytes U32MAX
  let keyLen := b.length
  match bitmapFold keyLen (scanKeys store b e maxKeys) ∅ with
  | none => none
  | some bm => some (if bm ≠ ∅ then some bm else none)

/-- The scan loop of `iterate` for `first = false`: for every scanned entry,
call the (stateful, fallible) callback on the key with its leading subspace
byte stripped and on the entry's value. An `error` from the callback aborts;
its boolean result is discarded and iteration continues regardless
(`cb(...)?;` in the source reads only the error). -/
def iterLoop {σ ε : Type} (cb : σ → List Nat → List Nat → σ × Except ε Bool) :
    σ → Store → σ × Except ε Unit
  | s, [] => (s, Except.ok ())
  | s, (k, v) :: rest =>
    match cb s (k.drop 1) v with
    | (s', Except.error err) => (s', Except.error err)
    | (s', Except.ok _) => iterLoop cb s' rest

/-- `iterate`: for `first = false` scan the whole range with limit `u32::MAX`
(forward when `ascending`, reverse otherwise) and run the loop; for
`first = true` issue a forward scan with limit 1 regardless of `ascending`
and, if an entry exists, call the callback once — on the stripped key and,
as the value argument, the entry's key bytes (`kv_pair.key()` on both lines
109 and 110 of read.rs). `begin`/`end` are the serialized bounds. -/
def iterate {σ ε : Type} (store : Store) (b e : List Nat)
    (ascending first : Bool)
    (cb : σ → List Nat → List Nat → σ × Except ε Bool) (s0 : σ) :
    σ × Except ε Unit :=
  if !first then
    if ascending then
      iterLoop cb s0 (scan store b e U32MAX)
    else
      iterLoop cb s0 (scanReverse store b e U32MAX)
  else
    match scan store b e 1 with
    | [] => (s0, Except.ok ())
    | (k, _v) :: _ =>
      match cb s0 (k.drop 1) k with
      | (s1, Except.error err) => (s1, Except.error err)
      | (s1, Except.ok _) => (s1, Except.ok ())

/-- Modelled from the spec: `deserialize_i64_le` of `crate::backend` — decode
the bytes as a little-endian signed 64-bit integer; `Deserialization` error
(`none`) when the byte length is not that of an `i64` (§4.5, §7). -/
def deserialize_i64_le (bytes : List Nat) : Option Int :=
  if bytes.length = 8 then
    let n : Nat := bytes.reverse.foldl (fun acc b => acc * 256 + b) 0
    some (if n < 2 ^ 63 then (n : Int) else (n : Int) - 2 ^ 64)
  else
    none

/-- `get_counter`: fetch the serialized key's raw bytes; absent yields
`Ok(0)`; present bytes are decoded by `deserialize_i64_le`. The outer
`Option` is the propagated `Deserialization` error. -/
def get_counter (get : List Nat → Option (List Nat)) (key : List Nat) :
    Option Int :=
  match get key with
  | none => some 0
  | some bytes => deserialize_i64_le bytes

end Tikv

open Tikv

/-! ## Chunked-value reassembly -/

/-- When the consecutive chunk payloads are `cs 0, …, cs (m-1)` and index `m`
holds the first absent key, the chunk loop started at index `j` with enough
fuel appends exactly the payloads `cs j, …, cs (m-1)` and reports `m`. -/
lemma chunkLoop_spec (get : List Nat → Option (List Nat)) (base : List Nat)
    (cs : Nat → List Nat) (m : Nat) (hm : m ≤ 255)
    (hpres : ∀ i, i < m → get (base ++ [i]) = some (cs i))
    (habs : get (base ++ [m]) = none) :
    ∀ fuel j acc, j ≤ m → m < j + fuel →
      chunkLoop get base fuel j acc
        = some (acc ++ ((List.range' j (m - j)).map cs).flatten, m) := by
  intro fuel
  induction fuel with
  | zero => intro j acc hj hfuel; omega
  | succ fuel ih =>
    intro j acc hj hfuel
    by_cases hjm : j = m
    · subst hjm
      simp [chunkLoop, habs]
    · have hjm' : j < m := by omega
      have h255 : j < 255 := by omega
      simp only [chunkLoop, hpres j hjm', h255, if_true]
      rw [ih (j + 1) (acc ++ cs j) (by omega) (by omega)]
      have hrange : List.range' j (m - j) = j :: List.range' (j + 1) (m - j - 1) := by
        have hsplit : m - j = (m - j - 1) + 1 := by omega
        rw [hsplit, List.range'_succ]
        simp
      rw [hrange]
      simp [List.append_assoc, Nat.sub_sub]

/-- When every chunk key up to trailing byte 255 is present, the chunk loop
never exits normally: the u8 index increment overflows. -/
lemma chunkLoop_overflow (get : List Nat → Option (List Nat)) (base : List Nat)
    (hall : ∀ i, i ≤ 255 → (get (base ++ [i])).isSome) :
    ∀ fuel j acc, j ≤ 255 → chunkLoop get base fuel j acc = none := by
  intro fuel
  induction fuel with
  | zero => intro j acc _; rfl
  | succ fuel ih =>
    intro j acc hj
    obtain ⟨b, hb⟩ := Option.isSome_iff_exists.mp (hall j hj)
    by_cases hj' : j < 255
    · simp only [chunkLoop, hb, hj', if_true]
      exact ih (j + 1) (acc ++ b) (by omega)
    · simp [chunkLoop, hb, hj']

/-- Claim C1 counterexample: with `MAX_VALUE_SIZE = 4`, base key `[9]` holds
`[1,2,3,4]` (length ≥ 4), chunk index 0 holds `[5]` (length 1 < 4, a short
chunk), yet chunk index 1 is present holding `[6]`. Reassembly does not stop
at the short chunk: chunk 1's payload is included, the result is
`[1,2,3,4,5,6]` and not the `[1,2,3,4] ++ [5]` that stopping at the first
short chunk would produce. -/
theorem read_chunked_value_includes_chunk_after_short :
    read_chunked_value 4
      (fun k => if k = [9] then some [1, 2, 3, 4]
        else if k = [9, 0] then some [5]
        else if k = [9, 1] then some [6] else none) [9]
      = some (ChunkedValue.Chunked 2 [1, 2, 3, 4, 5, 6])
    ∧ [1, 2, 3, 4, 5, 6] ≠ [1, 2, 3, 4] ++ [5] := by
  decide

/-- Claim C1 (amended): after fetching a base value of length ≥ `MAX_VALUE_SIZE`,
reassembly appends the chunk payloads at consecutive trailing indices and
stops exactly at the first absent chunk key; a chunk's payload length never
stops the loop, so every present chunk below the first absent index —
including any chunk following a short one — is part of the returned bytes,
and `n_chunks` is that first absent index. -/
theorem read_chunked_value_stops_only_on_absence
    (mvs : Nat) (get : List Nat → Option (List Nat)) (key B : List Nat)
    (cs : Nat → List Nat) (m : Nat)
    (hbase : get key = some B) (hlen : mvs ≤ B.length) (hm : m ≤ 255)
    (hpres : ∀ i, i < m → get (key ++ [i]) = some (cs i))
    (habs : get (key ++ [m]) = none) :
    read_chunked_value mvs get key
      = some (ChunkedValue.Chunked m (B ++ ((List.range m).map cs).flatten)) := by
  unfold read_chunked_value
  rw [hbase]
  have hnot : ¬ B.length < mvs := by omega
  simp only [hnot, if_false]
  rw [chunkLoop_spec get key cs m hm hpres habs 256 0 B (by omega) (by omega)]
  simp [List.range_eq_range']

/-- Witness for `read_chunked_value_stops_only_on_absence`: base `[7,7,7,7]`
of length ≥ 4, a short chunk `[1]` at index 0 followed by a present chunk
`[2]` at index 1, first absence at index 2. -/
theorem read_chunked_value_stops_only_on_absence_witness :
    read_chunked_value 4
      (fun k => if k = [2] then some [7, 7, 7, 7]
        else if k = [2, 0] then some [1]
        else if k = [2, 1] then some [2] else none) [2]
      = some (ChunkedValue.Chunked 2 [7, 7, 7, 7, 1, 2]) := by
  exact (read_chunked_value_stops_only_on_absence 4
    (fun k => if k = [2] then some [7, 7, 7, 7]
      else if k = [2, 0] then some [1]
      else if k = [2, 1] then some [2] else none) [2] [7, 7, 7, 7]
    (fun i => if i = 0 then [1] else [2]) 2
    (by decide) (by decide) (by decide) (by decide) (by decide)).trans (by decide)

/-- Claim C2: under the spec's chunked-value layout invariant — base entry of
length ≥ `MAX_VALUE_SIZE`, chunks at trailing indices `0..n` all of length
`MAX_VALUE_SIZE` except a final short one, no key at index `n+1`, chunk
count within a byte, and base-plus-chunk concatenation in index order equal
to the original logical value `V` — reassembly returns `Chunked` with
exactly the bytes `V`; and a single entry shorter than `MAX_VALUE_SIZE`
yields `Single` with exactly its bytes. -/
theorem read_chunked_value_layout_roundtrip
    (mvs : Nat) (get : List Nat → Option (List Nat)) (key : List Nat) :
    (∀ (B V : List Nat) (cs : Nat → List Nat) (n : Nat),
        get key = some B → mvs ≤ B.length → n + 1 ≤ 255 →
        (∀ i, i < n → get (key ++ [i]) = some (cs i) ∧ (cs i).length = mvs) →
        get (key ++ [n]) = some (cs n) → (cs n).length < mvs →
        get (key ++ [n + 1]) = none →
        V = B ++ ((List.range (n + 1)).map cs).flatten →
        read_chunked_value mvs get key = some (ChunkedValue.Chunked (n + 1) V))
    ∧ (∀ B : List Nat, get key = some B → B.length < mvs →
        read_chunked_value mvs get key = some (ChunkedValue.Single B)) := by
  constructor
  · intro B V cs n hbase hlen hn hfull hlast hshort habs hV
    subst hV
    have hpres : ∀ i, i < n + 1 → get (key ++ [i]) = some (cs i) := by
      intro i hi
      rcases Nat.lt_succ_iff_lt_or_eq.mp hi with h | h
      · exact (hfull i h).1
      · subst h; exact hlast
    unfold read_chunked_value
    rw [hbase]
    have hnot : ¬ B.length < mvs := by omega
    simp only [hnot, if_false]
    rw [chunkLoop_spec get key cs (n + 1) hn hpres habs 256 0 B (by omega) (by omega)]
    simp [List.range_eq_range']
  · intro B hbase hlen
    unfold read_chunked_value
    rw [hbase]
    simp [hlen]

/-- Witness for `read_chunked_value_layout_roundtrip`: with
`MAX_VALUE_SIZE = 2`, a value `[8,8,3]` laid out as base `[8,8]` plus final
short chunk `[3]` reads back as `Chunked` with exactly those bytes, and a
lone short entry `[9]` reads back as `Single [9]`. -/
theorem read_chunked_value_layout_roundtrip_witness :
    read_chunked_value 2
      (fun k => if k = [4] then some [8, 8]
        else if k = [4, 0] then some [3] else none) [4]
      = some (ChunkedValue.Chunked 1 [8, 8, 3])
    ∧ read_chunked_value 2 (fun k => if k = [4] then some [9] else none) [4]
      = some (ChunkedValue.Single [9]) := by
  constructor
  · exact ((read_chunked_value_layout_roundtrip 2
      (fun k => if k = [4] then some [8, 8]
        else if k = [4, 0] then some [3] else none) [4]).1
      [8, 8] [8, 8, 3] (fun _ => [3]) 0 (by decide) (by decide) (by decide)
      (by decide) (by decide) (by decide) (by decide) (by decide)).trans (by decide)
  · exact (read_chunked_value_layout_roundtrip 2
      (fun k => if k = [4] then some [9] else none) [4]).2 [9] (by decide) (by decide)

/-- Claim C10: the next chunk key is the previous one with its single trailing
index byte incremented; when the number of consecutive present chunk keys is
some `m ≤ 255` (first absence at index `m`), no increment leaves u8 range
and the returned `n_chunks` is exactly that count `m`; when 256 consecutive
chunk keys (trailing bytes 0 through 255) are all present, the increment of
the trailing byte exceeds u8 range and the overflow outcome is reached. -/
theorem chunk_index_increment_overflow
    (mvs : Nat) (get : List Nat → Option (List Nat)) (key B : List Nat)
    (m : Nat) (hbase : get key = some B) (hlen : mvs ≤ B.length) :
    (m ≤ 255 → (∀ i, i < m → (get (key ++ [i])).isSome) →
      get (key ++ [m]) = none →
      read_chunked_value mvs get key
        = some (ChunkedValue.Chunked m
            (B ++ ((List.range m).map (fun i => (get (key ++ [i])).getD [])).flatten)))
    ∧ ((∀ i, i ≤ 255 → (get (key ++ [i])).isSome) →
      read_chunked_value mvs get key = none) := by
  constructor
  · intro hm hpres habs
    have hpres' : ∀ i, i < m → get (key ++ [i]) = some ((get (key ++ [i])).getD []) := by
      intro i hi
      obtain ⟨b, hb⟩ := Option.isSome_iff_exists.mp (hpres i hi)
      simp [hb]
    unfold read_chunked_value
    rw [hbase]
    have hnot : ¬ B.length < mvs := by omega
    simp only [hnot, if_false]
    rw [chunkLoop_spec get key _ m hm hpres' habs 256 0 B (by omega) (by omega)]
    simp [List.range_eq_range']
  · intro hall
    unfold read_chunked_value
    rw [hbase]
    have hnot : ¬ B.length < mvs := by omega
    simp only [hnot, if_false]
    rw [chunkLoop_overflow get key hall 256 0 B (by omega)]

set_option maxRecDepth 4000 in
/-- Witness for `chunk_index_increment_overflow`: with `MAX_VALUE_SIZE = 1`,
a store whose only entry is the base key has zero consecutive chunk keys and
yields `Chunked 0`; a store answering every key keeps all 256 chunk keys
present and reaches the overflow outcome. -/
theorem chunk_index_increment_overflow_witness :
    read_chunked_value 1 (fun k => if k = [3] then some [0] else none) [3]
      = some (ChunkedValue.Chunked 0 [0])
    ∧ read_chunked_value 1 (fun _ => some [0]) [3] = none := by
  constructor
  · exact ((chunk_index_increment_overflow 1
      (fun k => if k = [3] then some [0] else none) [3] [0] 0
      (by decide) (by decide)).1 (by decide) (by decide) (by decide)).trans (by decide)
  · exact (chunk_index_increment_overflow 1 (fun _ => some [0]) [3] [0] 0
      rfl (by decide)).2 (by decide)

/-! ## Range iteration -/

/-- An always-continue counting callback run through the `iterate` scan loop
counts exactly the scanned entries. -/
lemma iterLoop_count (l : Store) :
    ∀ s : Nat,
      (iterLoop (ε := Unit) (fun n _ _ => (n + 1, Except.ok true)) s l).1
        = s + l.length := by
  induction l with
  | nil => intro s; simp [iterLoop]
  | cons kv rest ih =>
    intro s
    cases kv
    simp [iterLoop, ih]
    omega

/-- Claim C3 (code defect): `iterate` with `first = false` discards the callback's
boolean continuation signal (`cb(...)?;` on read.rs lines 90 and 98 reads
only the error): with two entries in range and a callback that returns
`false` (the stop signal) on every invocation while counting its calls, the
callback runs 2 times instead of stopping after 1, in both ascending and
descending modes. -/
theorem iterate_ignores_stop_signal :
    (iterate (σ := Nat) (ε := Unit) [([0, 1], [10]), ([0, 2], [20])]
        [0] [1] true false (fun n _ _ => (n + 1, Except.ok false)) 0).1 = 2
    ∧ (iterate (σ := Nat) (ε := Unit) [([0, 1], [10]), ([0, 2], [20])]
        [0] [1] false false (fun n _ _ => (n + 1, Except.ok false)) 0).1 = 2 := by
  decide

/-- Claim C4 (code defect): `iterate` with `first = true` issues a forward scan
with limit 1 regardless of the direction flag (read.rs line 104): on a range
holding the keys `[0,1]` and `[0,2]`, the descending (`ascending = false`)
first-only mode invokes the callback on the stripped key `[1]` — the
smallest key of the range — and not on `[2]`, the largest, which the
requested direction demands. -/
theorem iterate_first_ignores_direction :
    (iterate (σ := List (List Nat)) (ε := Unit)
        [([0, 1], [10]), ([0, 2], [20])] [0] [1] false true
        (fun s k _ => (s ++ [k], Except.ok true)) []).1 = [[1]]
    ∧ [[1]] ≠ ([[2]] : List (List Nat)) := by
  decide

/-- Claim C5 (code defect): in first-only mode the callback's second argument is
the entry's key bytes, not its stored value (read.rs line 110 binds `value`
to `kv_pair.key()`): for the single entry with key `[0,7]` and value
`[9,9]`, the callback receives `([7], [0,7])` — the stripped key and the
full key bytes — instead of `([7], [9,9])`. In the non-first ascending mode
the same entry's callback does receive the stripped key and the stored
value. -/
theorem iterate_first_passes_key_as_value :
    (iterate (σ := List (List Nat × List Nat)) (ε := Unit) [([0, 7], [9, 9])]
        [0] [1] true true (fun s k v => (s ++ [(k, v)], Except.ok true)) []).1
      = [([7], [0, 7])]
    ∧ [([7], [0, 7])] ≠ ([([7], [9, 9])] : List (List Nat × List Nat))
    ∧ (iterate (σ := List (List Nat × List Nat)) (ε := Unit) [([0, 7], [9, 9])]
        [0] [1] true false (fun s k v => (s ++ [(k, v)], Except.ok true)) []).1
      = [([7], [9, 9])] := by
  decide

/-- Claim C9 (code defect): the full-range scans of `iterate` are issued with
limit `u32::MAX` (read.rs lines 86 and 93, beneath the comment `TODO: Limit
by max_keys`), not with the adapter's `MAX_KEYS` bound: with an
always-continue counting callback, the number of callback invocations equals
the whole in-range entry count capped only at `u32::MAX`, in both
directions, so no `MAX_KEYS` bound is applied to any such scan. -/
theorem iterate_scan_limit_unbounded (store : Store) (b e : List Nat) :
    (iterate (σ := Nat) (ε := Unit) store b e true false
        (fun n _ _ => (n + 1, Except.ok true)) 0).1
      = min ((store.filter (fun kv => inRange b e kv.1)).length) U32MAX
    ∧ (iterate (σ := Nat) (ε := Unit) store b e false false
        (fun n _ _ => (n + 1, Except.ok true)) 0).1
      = min ((store.filter (fun kv => inRange b e kv.1)).length) U32MAX := by
  constructor
  · simp [iterate, scan, iterLoop_count, Nat.min_comm]
  · simp [iterate, scanReverse, iterLoop_count, Nat.min_comm]

/-! ## Bitmap scanning -/

/-- A shared prefix cancels on the left of the lexicographic strict order. -/
lemma lexLt_append_left (p a b : List Nat) :
    lexLt (p ++ a) (p ++ b) = lexLt a b := by
  induction p with
  | nil => rfl
  | cons x xs ih => simp [lexLt, ih]

/-- A shared prefix cancels on the left of the lexicographic order. -/
lemma lexLe_append_left (p a b : List Nat) :
    lexLe (p ++ a) (p ++ b) = lexLe a b := by
  have h : (p ++ a == p ++ b) = (a == b) := by
    cases hab : a == b
    · have hne : a ≠ b := by
        intro hcon
        subst hcon
        simp at hab
      have hne' : p ++ a ≠ p ++ b := fun hcon => hne (List.append_cancel_left hcon)
      exact beq_eq_false_iff_ne.mpr hne'
    · have heq : a = b := eq_of_beq hab
      subst heq
      simp
  simp [lexLe, lexLt_append_left, h]

/-- The all-zero byte string is lexicographically least among byte strings
of its length. -/
lemma lexLe_replicate_zero (l : List Nat) :
    lexLe (List.replicate l.length 0) l = true := by
  induction l with
  | nil => rfl
  | cons x xs ih =>
    rcases Nat.eq_zero_or_pos x with hx | hx
    · subst hx
      simpa [List.replicate_succ, lexLe, lexLt] using ih
    · simp [List.replicate_succ, lexLe, lexLt, hx]

/-- The all-255 byte string is lexicographically greatest among byte strings
of its length: every other such string is strictly below it. -/
lemma lexLt_replicate_255 (l : List Nat) (hb : ∀ x ∈ l, x ≤ 255)
    (hne : l ≠ List.replicate l.length 255) :
    lexLt l (List.replicate l.length 255) = true := by
  induction l with
  | nil => simp at hne
  | cons x xs ih =>
    have hx : x ≤ 255 := hb x (by simp)
    rcases Nat.lt_or_ge x 255 with h | h
    · simp [List.replicate_succ, lexLt, h]
    · have hx255 : x = 255 := by omega
      subst hx255
      have hxs : xs ≠ List.replicate xs.length 255 := by
        intro hcon
        exact hne (by simp [List.replicate_succ, ← hcon])
      have hr := ih (fun y hy => hb y (by simp [hy])) hxs
      simp [List.replicate_succ, lexLt, hr]

/-- The big-endian 4-byte document-ID encoding decodes back to the ID when
read at the offset of its position past a prefix. -/
lemma deserialize_be_u32_beU32 (p : List Nat) (d : Nat) (hd : d < 2 ^ 32) :
    deserialize_be_u32 (p ++ beU32 d) p.length = some d := by
  unfold deserialize_be_u32
  rw [List.drop_left]
  simp only [beU32, List.take_succ_cons, List.take_nil]
  norm_num
  omega

/-- Serialized bitmap keys of one class all have the same length. -/
lemma serializeBitmapKey_length (s : Nat) (cls : List Nat) (d : Nat) :
    (serializeBitmapKey s cls d).length = cls.length + 5 := by
  simp [serializeBitmapKey, beU32]

/-- Any document ID strictly below `u32::MAX` serializes into the scan range
`[serialize(class, 0), serialize(class, u32::MAX))` of `get_bitmap`. -/
lemma serialize_inRange (s : Nat) (cls : List Nat) (d : Nat) (hd : d < U32MAX) :
    inRange (serializeBitmapKey s cls 0) (serializeBitmapKey s cls U32MAX)
      (serializeBitmapKey s cls d) = true := by
  have hU : U32MAX = 2 ^ 32 - 1 := rfl
  have hd32 : d < 2 ^ 32 := by omega
  have hcast : ∀ x : Nat, serializeBitmapKey s cls x = (s :: cls) ++ beU32 x := by
    intro x; simp [serializeBitmapKey]
  have hlen4 : (beU32 d).length = 4 := by simp [beU32]
  unfold inRange
  rw [hcast, hcast, hcast, lexLe_append_left, lexLt_append_left]
  have h0 : beU32 0 = [0, 0, 0, 0] := by decide
  have hmax : beU32 U32MAX = [255, 255, 255, 255] := by decide
  have hbound : ∀ x ∈ beU32 d, x ≤ 255 := by
    intro x hx
    simp [beU32] at hx
    rcases hx with h | h | h | h <;> omega
  have hne : beU32 d ≠ List.replicate 4 255 := by
    intro hcon
    rw [show List.replicate 4 255 = [255, 255, 255, 255] from rfl] at hcon
    simp [beU32] at hcon
    omega
  have hz := lexLe_replicate_zero (beU32 d)
  rw [hlen4, show List.replicate 4 (0 : Nat) = [0, 0, 0, 0] from rfl] at hz
  have h255 := lexLt_replicate_255 (beU32 d) hbound (by rw [hlen4]; exact hne)
  rw [hlen4, show List.replicate 4 (255 : Nat) = [255, 255, 255, 255] from rfl] at h255
  rw [h0, hmax]
  simp only [Bool.and_eq_true]
  exact ⟨hz, h255⟩

/-- A key-only scan of a store holding exactly the serialized presence keys
of the ids in `ids`, all below `u32::MAX` and within the per-call key bound,
returns exactly those serialized keys. -/
lemma scanKeys_serialized (s : Nat) (cls : List Nat) (ids : List Nat)
    (vals : Nat → List Nat) (maxKeys : Nat)
    (hlt : ∀ d ∈ ids, d < U32MAX) (hcard : ids.length ≤ maxKeys) :
    scanKeys (ids.map (fun d => (serializeBitmapKey s cls d, vals d)))
        (serializeBitmapKey s cls 0) (serializeBitmapKey s cls U32MAX) maxKeys
      = ids.map (fun d => serializeBitmapKey s cls d) := by
  unfold scanKeys scan
  have hfilter :
      (ids.map (fun d => (serializeBitmapKey s cls d, vals d))).filter
          (fun kv => inRange (serializeBitmapKey s cls 0)
            (serializeBitmapKey s cls U32MAX) kv.1)
        = ids.map (fun d => (serializeBitmapKey s cls d, vals d)) := by
    apply List.filter_eq_self.mpr
    intro kv hkv
    obtain ⟨d, hd, hkv'⟩ := List.mem_map.mp hkv
    subst hkv'
    exact serialize_inRange s cls d (hlt d hd)
  rw [hfilter, List.take_of_length_le (by simpa using hcard)]
  simp

/-- Folding the serialized presence keys of `ids` into a bitmap adds exactly
the ids of `ids` to the accumulator. -/
lemma bitmapFold_serialized (s : Nat) (cls : List Nat) :
    ∀ (ids : List Nat) (bm : Finset Nat), (∀ d ∈ ids, d < 2 ^ 32) →
      bitmapFold (cls.length + 5) (ids.map (fun d => serializeBitmapKey s cls d)) bm
        = some (bm ∪ ids.toFinset) := by
  intro ids
  induction ids with
  | nil => intro bm _; simp [bitmapFold]
  | cons d rest ih =>
    intro bm hd
    have hdec : deserialize_be_u32 (serializeBitmapKey s cls d)
        (cls.length + 5 - 4) = some d := by
      have hk : serializeBitmapKey s cls d = (s :: cls) ++ beU32 d := by
        simp [serializeBitmapKey]
      have hoff : cls.length + 5 - 4 = (s :: cls).length := by simp
      rw [hoff, hk]
      exact deserialize_be_u32_beU32 (s :: cls) d (hd d (by simp))
    rw [List.map_cons]
    simp only [bitmapFold, serializeBitmapKey_length]
    rw [if_pos trivial, hdec]
    show bitmapFold (cls.length + 5)
        (List.map (fun d => serializeBitmapKey s cls d) rest) (insert d bm)
      = some (bm ∪ (d :: rest).toFinset)
    rw [ih (insert d bm) (fun x hx => hd x (by simp [hx]))]
    simp [Finset.insert_union, Finset.union_insert]

/-- Claim C6 counterexample: a store holding exactly the presence key for document
ID `u32::MAX` (class subspace 7, class byte 3): the serialized `end` bound of
the scan equals that key and the scan range `[begin, end)` excludes it, so
`get_bitmap` returns no bitmap at all instead of `Some {u32::MAX}`. -/
theorem get_bitmap_misses_max_doc_id :
    get_bitmap [(serializeBitmapKey 7 [3] U32MAX, [])] 7 [3] 0 10 = some none
    ∧ (some none : Option (Option (Finset Nat)))
        ≠ some (some ({U32MAX} : Finset Nat)) := by
  decide

/-- Claim C6 (amended): for every finite set of document IDs all strictly below
`u32::MAX`, held as individual presence keys of one class in a store of at
most `MAX_KEYS` entries, `get_bitmap` returns exactly that set, and returns
no bitmap (rather than an empty one) when the set is empty; the ID
`u32::MAX` itself lies outside the scanned range `[begin, end)`. -/
theorem get_bitmap_roundtrip_below_max
    (subspace : Nat) (classBytes : List Nat) (ids : List Nat)
    (vals : Nat → List Nat) (maxKeys : Nat)
    (hsort : ids.Pairwise (· < ·))
    (hlt : ∀ d ∈ ids, d < U32MAX) (hcard : ids.length ≤ maxKeys) :
    get_bitmap (ids.map (fun d => (serializeBitmapKey subspace classBytes d, vals d)))
        subspace classBytes 0 maxKeys
      = some (if ids.isEmpty then none else some ids.toFinset) := by
  have hlt32 : ∀ d ∈ ids, d < 2 ^ 32 := by
    intro d hd
    have hU : U32MAX = 2 ^ 32 - 1 := rfl
    have := hlt d hd
    omega
  unfold get_bitmap
  simp only
  rw [show (serializeBitmapKey subspace classBytes 0).length = classBytes.length + 5
    from serializeBitmapKey_length subspace classBytes 0]
  rw [scanKeys_serialized subspace classBytes ids vals maxKeys hlt hcard]
  rw [bitmapFold_serialized subspace classBytes ids ∅ hlt32]
  rcases ids with _ | ⟨d0, rest⟩
  · simp
  · simp [Finset.insert_ne_empty]

/-- Witness for `get_bitmap_roundtrip_below_max`: the one-element id set
`{5}` under subspace 7 and class byte 3 reads back as exactly `{5}`. -/
theorem get_bitmap_roundtrip_below_max_witness :
    get_bitmap [(serializeBitmapKey 7 [3] 5, [])] 7 [3] 0 10
      = some (some ({5} : Finset Nat)) := by
  have h := get_bitmap_roundtrip_below_max 7 [3] [5] (fun _ => []) 10
    (by simp) (by decide) (by decide)
  simpa using h

/-- The bitmap aggregation ignores every key whose length differs from the
expected one: folding a key list equals folding its correct-length sublist. -/
lemma bitmapFold_filter (keyLen : Nat) :
    ∀ (ks : List (List Nat)) (bm : Finset Nat),
      bitmapFold keyLen ks bm
        = bitmapFold keyLen (ks.filter (fun k => k.length = keyLen)) bm := by
  intro ks
  induction ks with
  | nil => intro bm; rfl
  | cons k rest ih =>
    intro bm
    by_cases h : k.length = keyLen
    · subst h
      rcases hdec : deserialize_be_u32 k (k.length - 4) with _ | d
      · simp [bitmapFold, hdec, List.filter_cons]
      · simp [bitmapFold, hdec, List.filter_cons, ih]
    · simp [bitmapFold, h, List.filter_cons, ih]

/-- Claim C7: `get_bitmap` aggregates document IDs only from scanned keys whose
total byte length equals the expected serialized key length (that of the
`begin` key); scanned keys of any other length — foreign keys sharing the
prefix — contribute no document ID: the result is the same as if they were
dropped from the scanned key list before aggregation. -/
theorem get_bitmap_filters_by_key_length
    (store : Store) (subspace : Nat) (classBytes : List Nat)
    (docId maxKeys : Nat) :
    get_bitmap store subspace classBytes docId maxKeys
      = (let b := serializeBitmapKey subspace classBytes docId
         let e := serializeBitmapKey subspace classBytes U32MAX
         match bitmapFold b.length
             ((scanKeys store b e maxKeys).filter
               (fun k => k.length = b.length)) ∅ with
         | none => none
         | some bm => some (if bm ≠ ∅ then some bm else none)) := by
  unfold get_bitmap
  simp only
  rw [bitmapFold_filter]

/-! ## Counter reading -/

/-- A base-256 digit fold over digits ≤ 255 stays below the capacity of its
width. -/
lemma foldl_base256_lt (l : List Nat) :
    ∀ a : Nat, (∀ x ∈ l, x ≤ 255) →
      l.foldl (fun acc b => acc * 256 + b) a < (a + 1) * 256 ^ l.length := by
  induction l with
  | nil => intro a _; simp
  | cons x xs ih =>
    intro a hx
    simp only [List.foldl_cons, List.length_cons]
    have hx255 : x ≤ 255 := hx x (by simp)
    calc xs.foldl (fun acc b => acc * 256 + b) (a * 256 + x)
        < (a * 256 + x + 1) * 256 ^ xs.length :=
          ih (a * 256 + x) (fun y hy => hx y (by simp [hy]))
      _ ≤ ((a + 1) * 256) * 256 ^ xs.length := by
          apply Nat.mul_le_mul_right
          omega
      _ = (a + 1) * 256 ^ (xs.length + 1) := by ring

/-- Claim C8: `get_counter` returns 0 when the key is absent (absence is not an
error); when the key holds exactly 8 bytes, it returns a value `z` in the
signed 64-bit range congruent modulo 2^64 to the little-endian unsigned
reading of the bytes — the bytes decoded as a little-endian signed 64-bit
integer; when the stored byte length is not that of an `i64`, it returns a
`Deserialization` error and no value. -/
theorem get_counter_spec (get : List Nat → Option (List Nat)) (key : List Nat) :
    (get key = none → get_counter get key = some 0)
    ∧ (∀ bytes, get key = some bytes → bytes.length = 8 → (∀ x ∈ bytes, x ≤ 255) →
        ∃ z : Int, get_counter get key = some z
          ∧ -2 ^ 63 ≤ z ∧ z < 2 ^ 63
          ∧ (z % (2 ^ 64 : Int) + 2 ^ 64) % 2 ^ 64
              = ((bytes.reverse.foldl (fun acc b => acc * 256 + b) 0 : Nat) : Int))
    ∧ (∀ bytes, get key = some bytes → bytes.length ≠ 8 →
        get_counter get key = none) := by
  refine ⟨?_, ?_, ?_⟩
  · intro h
    simp [get_counter, h]
  · intro bytes hb hlen hbound
    have hn : (bytes.reverse.foldl (fun acc b => acc * 256 + b) 0) < 2 ^ 64 := by
      have := foldl_base256_lt bytes.reverse 0
        (fun x hx => hbound x (List.mem_reverse.mp hx))
      simpa [hlen] using this
    set n : Nat := bytes.reverse.foldl (fun acc b => acc * 256 + b) 0 with hdef
    refine ⟨if n < 2 ^ 63 then (n : Int) else (n : Int) - 2 ^ 64, ?_, ?_, ?_, ?_⟩
    · simp [get_counter, hb, deserialize_i64_le, hlen, hdef]
    · by_cases hcase : n < 2 ^ 63
      · simp only [if_pos hcase]
        have h0 : (0 : Int) ≤ (n : Int) := Int.ofNat_nonneg n
        omega
      · simp only [if_neg hcase]
        have : (2 ^ 63 : Nat) ≤ n := Nat.le_of_not_lt hcase
        have hcast : ((2 ^ 63 : Nat) : Int) ≤ (n : Int) := by exact_mod_cast this
        omega
    · by_cases hcase : n < 2 ^ 63
      · simp only [if_pos hcase]
        exact_mod_cast hcase
      · simp only [if_neg hcase]
        have hcast : (n : Int) < (2 ^ 64 : Nat) := by exact_mod_cast hn
        omega
    · have h0 : (0 : Int) ≤ (n : Int) := Int.ofNat_nonneg n
      have hcast : (n : Int) < (2 ^ 64 : Nat) := by exact_mod_cast hn
      by_cases hcase : n < 2 ^ 63
      · simp only [if_pos hcase]
        omega
      · simp only [if_neg hcase]
        have : ((2 ^ 63 : Nat) : Int) ≤ (n : Int) := by
          exact_mod_cast Nat.le_of_not_lt hcase
        omega
  · intro bytes hb hlen
    simp [get_counter, hb, deserialize_i64_le, hlen]

/-- Witness for `get_counter_spec`: an absent key yields 0; the little-endian
bytes of -5 yield a value in signed 64-bit range; a 2-byte value is a
`Deserialization` error. -/
theorem get_counter_spec_witness :
    get_counter (fun _ => none) ([] : List Nat) = some 0
    ∧ (∃ z : Int,
        get_counter (fun _ => some [251, 255, 255, 255, 255, 255, 255, 255])
            ([] : List Nat) = some z
          ∧ -2 ^ 63 ≤ z ∧ z < 2 ^ 63)
    ∧ get_counter (fun _ => some [1, 2]) ([] : List Nat) = none := by
  refine ⟨(get_counter_spec (fun _ => none) []).1 rfl, ?_,
    (get_counter_spec (fun _ => some [1, 2]) []).2.2 [1, 2] rfl (by decide)⟩
  obtain ⟨z, hz, h1, h2, _⟩ :=
    (get_counter_spec (fun _ => some [251, 255, 255, 255, 255, 255, 255, 255])
      []).2.1 [251, 255, 255, 255, 255, 255, 255, 255] rfl rfl (by decide)
  exact ⟨z, hz, h1, h2⟩
